import Mathlib

/-!
Verification of the Pi-Network muxed-address suffix-hunter core.

Definitions are shallow embeddings of the Python sources:
  - `wallet/muxing/kimi25optimized/suffix_hunter_optimized.py`
    (CRC16 table, `crc16_xmodem`, `encode_muxed_bytes`, `feed_chunks`)
  - `wallet/muxing/mux_finder_V2.py` (`is_valid_suffix`, `writer_and_monitor`,
    `feed_chunks`)
  - `wallet/muxing/suffix_hunter.py` (`worker_process`, `feed_chunks`)
Bytes are modelled as `Nat` below 256, byte strings as `List Nat`,
text as `List Char`.
-/

/-! ## Checksum: CRC16-XMODEM (suffix_hunter_optimized.py) -/

/-- One round of the inner loop of `_gen_crc`:
`crc = ((crc << 1) ^ 0x1021) & 0xFFFF if crc & 0x8000 else (crc << 1) & 0xFFFF`. -/
def crcStep (crc : Nat) : Nat :=
  if crc &&& 0x8000 ≠ 0 then ((crc <<< 1) ^^^ 0x1021) &&& 0xFFFF
  else (crc <<< 1) &&& 0xFFFF

/-- Iterate `crcStep` `n` times (the `for _ in range(8)` loop runs it 8 times). -/
def crcRounds : Nat → Nat → Nat
  | 0, crc => crc
  | n + 1, crc => crcRounds n (crcStep crc)

/-- The table built by `_gen_crc`: entry `i` starts from `i << 8` and
applies 8 rounds. -/
def CRC16_XMODEM_TABLE : List Nat :=
  (List.range 256).map (fun i => crcRounds 8 (i <<< 8))

/-- Python list indexing `CRC16_XMODEM_TABLE[i]` (all call sites mask the
index with `& 0xFF`, so the default is never hit). -/
def tableAt (i : Nat) : Nat := CRC16_XMODEM_TABLE.getD i 0

/-- Python `crc16_xmodem(data)`:
`crc = 0`, then per byte
`crc = (TABLE[((crc >> 8) ^ byte) & 0xFF] ^ (crc << 8)) & 0xFFFF`. -/
def crc16_xmodem (data : List Nat) : Nat :=
  data.foldl
    (fun crc byte =>
      (tableAt (((crc >>> 8) ^^^ byte) &&& 0xFF) ^^^ (crc <<< 8)) &&& 0xFFFF)
    0

/-- Modelled from the spec: one MSB-first round of the CRC16-XMODEM bitwise
algorithm with polynomial 0x1021 (shift left, conditionally XOR the
polynomial when the top bit was set, keep 16 bits). -/
def specStep (crc : Nat) : Nat :=
  if crc.testBit 15 then ((crc <<< 1) ^^^ 0x1021) % 65536
  else (crc <<< 1) % 65536

/-- Modelled from the spec: `n` MSB-first rounds. -/
def specRounds : Nat → Nat → Nat
  | 0, crc => crc
  | n + 1, crc => specRounds n (specStep crc)

/-- Modelled from the spec: bitwise CRC16-XMODEM, initial value 0, MSB-first
(each byte is XORed into the top 8 bits, then 8 rounds), no final XOR. -/
def crc16_spec (data : List Nat) : Nat :=
  data.foldl (fun crc byte => specRounds 8 (crc ^^^ (byte <<< 8))) 0

/-! ### CRC lemmas -/

theorem crcStep_eq_specStep (c : Nat) : crcStep c = specStep c := by
  unfold crcStep specStep
  have h15 : c &&& 0x8000 = (c.testBit 15).toNat * 2 ^ 15 := by
    have := Nat.and_two_pow c 15
    norm_num at this ⊢
    exact this
  have hm : ∀ x : Nat, x &&& 0xFFFF = x % 65536 := by
    intro x
    have := Nat.and_pow_two_sub_one_eq_mod x 16
    norm_num at this
    exact this
  cases h : c.testBit 15 <;> simp [h15, h, hm]

theorem crcRounds_eq_specRounds (n c : Nat) : crcRounds n c = specRounds n c := by
  induction n generalizing c with
  | zero => rfl
  | succ n ih => simp [crcRounds, specRounds, crcStep_eq_specStep, ih]

theorem xor_shiftLeft_distrib (a b n : Nat) :
    (a ^^^ b) <<< n = (a <<< n) ^^^ (b <<< n) := by
  apply Nat.eq_of_testBit_eq
  intro i
  simp [Nat.testBit_shiftLeft, Nat.testBit_xor, Bool.and_xor_distrib_left]

theorem xor_xor_cancel (a b p : Nat) : (a ^^^ p) ^^^ (b ^^^ p) = a ^^^ b := by
  apply Nat.eq_of_testBit_eq
  intro i
  simp [Nat.testBit_xor]
  cases a.testBit i <;> cases b.testBit i <;> cases p.testBit i <;> rfl

theorem crcStep_of_true {c : Nat} (h : c.testBit 15 = true) :
    crcStep c = ((c <<< 1) ^^^ 0x1021) &&& 0xFFFF := by
  unfold crcStep
  rw [if_pos]
  have h2 := Nat.and_two_pow c 15
  norm_num at h2
  rw [h2, h]
  norm_num

theorem crcStep_of_false {c : Nat} (h : c.testBit 15 = false) :
    crcStep c = (c <<< 1) &&& 0xFFFF := by
  unfold crcStep
  rw [if_neg]
  have h2 := Nat.and_two_pow c 15
  norm_num at h2
  rw [h2, h]
  norm_num

theorem crcStep_xor (x y : Nat) : crcStep (x ^^^ y) = crcStep x ^^^ crcStep y := by
  cases hx : x.testBit 15 <;> cases hy : y.testBit 15
  · have hxy : (x ^^^ y).testBit 15 = false := by
      simp [Nat.testBit_xor, hx, hy]
    rw [crcStep_of_false hxy, crcStep_of_false hx, crcStep_of_false hy,
      ← Nat.and_xor_distrib_right, xor_shiftLeft_distrib]
  · have hxy : (x ^^^ y).testBit 15 = true := by
      simp [Nat.testBit_xor, hx, hy]
    rw [crcStep_of_true hxy, crcStep_of_false hx, crcStep_of_true hy,
      ← Nat.and_xor_distrib_right]
    congr 1
    rw [xor_shiftLeft_distrib, Nat.xor_assoc]
  · have hxy : (x ^^^ y).testBit 15 = true := by
      simp [Nat.testBit_xor, hx, hy]
    rw [crcStep_of_true hxy, crcStep_of_true hx, crcStep_of_false hy,
      ← Nat.and_xor_distrib_right]
    congr 1
    rw [xor_shiftLeft_distrib, Nat.xor_assoc, Nat.xor_comm (y <<< 1) 0x1021,
      ← Nat.xor_assoc]
  · have hxy : (x ^^^ y).testBit 15 = false := by
      simp [Nat.testBit_xor, hx, hy]
    rw [crcStep_of_false hxy, crcStep_of_true hx, crcStep_of_true hy,
      ← Nat.and_xor_distrib_right, xor_xor_cancel, xor_shiftLeft_distrib]

theorem crcRounds_xor (n x y : Nat) :
    crcRounds n (x ^^^ y) = crcRounds n x ^^^ crcRounds n y := by
  induction n generalizing x y with
  | zero => rfl
  | succ n ih => simp [crcRounds, crcStep_xor, ih]

theorem crcStep_lt (c : Nat) : crcStep c < 65536 := by
  unfold crcStep
  have hm : ∀ x : Nat, x &&& 0xFFFF = x % 65536 := by
    intro x
    have := Nat.and_pow_two_sub_one_eq_mod x 16
    norm_num at this
    exact this
  split <;> rw [hm] <;> exact Nat.mod_lt _ (by norm_num)

theorem crcRounds_lt (n c : Nat) : crcRounds (n + 1) c < 65536 := by
  induction n generalizing c with
  | zero => exact crcStep_lt c
  | succ n ih => exact ih (crcStep c)

theorem crcRounds_of_small : ∀ (n s : Nat), s * 2 ^ n < 65536 →
    crcRounds n s = s <<< n := by
  intro n
  induction n with
  | zero => intro s _; simp [crcRounds]
  | succ n ih =>
    intro s hs
    have h2 : s * 2 < 65536 := by
      calc s * 2 ≤ s * 2 ^ (n + 1) :=
            Nat.mul_le_mul_left s (by
              have : (2 : Nat) ^ 1 ≤ 2 ^ (n + 1) :=
                Nat.pow_le_pow_right (by norm_num) (by omega)
              simpa using this)
        _ < 65536 := hs
    have hs15 : s < 32768 := by omega
    have hstep : crcStep s = s * 2 := by
      unfold crcStep
      have hbit : s &&& 0x8000 = 0 := by
        have h := Nat.and_two_pow s 15
        have hp : (2 : Nat) ^ 15 = 32768 := by norm_num
        have ht : s.testBit 15 = false :=
          Nat.testBit_lt_two_pow (by rw [hp]; exact hs15)
        norm_num at h
        rw [h, ht]
        rfl
      rw [if_neg (by simp [hbit])]
      have : s <<< 1 = s * 2 := by rw [Nat.shiftLeft_eq]
      rw [this]
      have hmask : s * 2 &&& 0xFFFF = s * 2 % 65536 := by
        have := Nat.and_pow_two_sub_one_eq_mod (s * 2) 16
        norm_num at this
        exact this
      rw [hmask, Nat.mod_eq_of_lt h2]
    have hrec : crcRounds n (s * 2) = (s * 2) <<< n := by
      apply ih
      calc s * 2 * 2 ^ n = s * 2 ^ (n + 1) := by ring
        _ < 65536 := hs
    calc crcRounds (n + 1) s = crcRounds n (crcStep s) := rfl
      _ = crcRounds n (s * 2) := by rw [hstep]
      _ = (s * 2) <<< n := hrec
      _ = s <<< (n + 1) := by
          rw [Nat.shiftLeft_eq, Nat.shiftLeft_eq]; ring

theorem byte_decompose (x b : Nat) :
    x ^^^ (b <<< 8) = (((x >>> 8) ^^^ b) <<< 8) ^^^ (x &&& 255) := by
  have hand : x &&& 255 = x % 2 ^ 8 := by
    have h := Nat.and_pow_two_sub_one_eq_mod x 8
    norm_num at h ⊢
    exact h
  rw [hand]
  apply Nat.eq_of_testBit_eq
  intro i
  by_cases h8 : 8 ≤ i
  · have hd1 : decide (8 ≤ i) = true := by simp [h8]
    have hd2 : decide (i < 8) = false := by simp; omega
    have hi : 8 + (i - 8) = i := by omega
    simp only [Nat.testBit_xor, Nat.testBit_shiftLeft, Nat.testBit_shiftRight,
      Nat.testBit_mod_two_pow, hd1, hd2, hi, Bool.true_and, Bool.false_and,
      Bool.xor_false]
  · have hd1 : decide (8 ≤ i) = false := by simp; omega
    have hd2 : decide (i < 8) = true := by simp; omega
    simp only [Nat.testBit_xor, Nat.testBit_shiftLeft, Nat.testBit_shiftRight,
      Nat.testBit_mod_two_pow, hd1, hd2, Bool.true_and, Bool.false_and,
      Bool.xor_false, Bool.false_xor]

theorem tableAt_eq (i : Nat) (h : i < 256) :
    tableAt i = crcRounds 8 (i <<< 8) := by
  unfold tableAt CRC16_XMODEM_TABLE
  rw [List.getD_eq_getElem?_getD, List.getElem?_map, List.getElem?_range h]
  rfl

theorem crcByte_eq (crc b : Nat) (hc : crc < 65536) (hb : b < 256) :
    (tableAt (((crc >>> 8) ^^^ b) &&& 0xFF) ^^^ (crc <<< 8)) &&& 0xFFFF
      = crcRounds 8 (crc ^^^ (b <<< 8)) := by
  have hhi : crc >>> 8 < 256 := by
    rw [Nat.shiftRight_eq_div_pow]
    norm_num
    omega
  have hp8 : (2 : Nat) ^ 8 = 256 := by norm_num
  have ht : (crc >>> 8) ^^^ b < 256 := by
    have h := Nat.xor_lt_two_pow (x := crc >>> 8) (y := b) (n := 8)
      (by rw [hp8]; exact hhi) (by rw [hp8]; exact hb)
    rwa [hp8] at h
  have hidx : ((crc >>> 8) ^^^ b) &&& 0xFF = (crc >>> 8) ^^^ b := by
    have h := Nat.and_pow_two_sub_one_of_lt_two_pow (x := (crc >>> 8) ^^^ b)
      (n := 8) (by norm_num; omega)
    norm_num at h
    exact h
  rw [hidx, tableAt_eq _ ht]
  have hlow : crc &&& 255 < 256 := by
    have h := Nat.and_pow_two_sub_one_eq_mod crc 8
    norm_num at h
    rw [h]
    exact Nat.mod_lt _ (by norm_num)
  have hsmall : crcRounds 8 (crc &&& 255) = (crc &&& 255) <<< 8 :=
    crcRounds_of_small 8 (crc &&& 255) (by norm_num; omega)
  have hT : crcRounds 8 (((crc >>> 8) ^^^ b) <<< 8) < 65536 := crcRounds_lt 7 _
  have hTm : crcRounds 8 (((crc >>> 8) ^^^ b) <<< 8) &&& 0xFFFF
      = crcRounds 8 (((crc >>> 8) ^^^ b) <<< 8) := by
    have h := Nat.and_pow_two_sub_one_of_lt_two_pow
      (x := crcRounds 8 (((crc >>> 8) ^^^ b) <<< 8)) (n := 16) (by norm_num; omega)
    norm_num at h
    exact h
  have hshift : (crc <<< 8) &&& 0xFFFF = (crc &&& 255) <<< 8 := by
    have h1 : (crc <<< 8) &&& 0xFFFF = crc <<< 8 % 65536 := by
      have h := Nat.and_pow_two_sub_one_eq_mod (crc <<< 8) 16
      norm_num at h
      exact h
    have h2 : crc &&& 255 = crc % 256 := by
      have h := Nat.and_pow_two_sub_one_eq_mod crc 8
      norm_num at h
      exact h
    rw [h1, h2, Nat.shiftLeft_eq, Nat.shiftLeft_eq]
    norm_num
    have := Nat.mul_mod_mul_right 256 crc 256
    norm_num at this
    exact this
  rw [byte_decompose crc b, crcRounds_xor, hsmall, Nat.and_xor_distrib_right,
    hTm, hshift]

theorem crc16_fold_equiv : ∀ (data : List Nat) (crc : Nat), crc < 65536 →
    (∀ b ∈ data, b < 256) →
    data.foldl
      (fun crc byte =>
        (tableAt (((crc >>> 8) ^^^ byte) &&& 0xFF) ^^^ (crc <<< 8)) &&& 0xFFFF)
      crc
    = data.foldl (fun crc byte => crcRounds 8 (crc ^^^ (byte <<< 8))) crc := by
  intro data
  induction data with
  | nil => intro crc _ _; rfl
  | cons b rest ih =>
    intro crc hc hall
    have hb : b < 256 := hall b (List.mem_cons_self b rest)
    have hstep := crcByte_eq crc b hc hb
    have hlt : (tableAt (((crc >>> 8) ^^^ b) &&& 0xFF) ^^^ (crc <<< 8)) &&& 0xFFFF
        < 65536 := by
      rw [hstep]
      exact crcRounds_lt 7 _
    simp only [List.foldl_cons]
    rw [hstep]
    exact ih _ (hstep ▸ hlt) (fun x hx => hall x (List.mem_cons_of_mem b hx))

theorem crc16_eq_spec_of_bytes (data : List Nat) (hall : ∀ b ∈ data, b < 256) :
    crc16_xmodem data = crc16_spec data := by
  unfold crc16_xmodem crc16_spec
  have h := crc16_fold_equiv data 0 (by norm_num) hall
  rw [h]
  congr 1
  funext crc byte
  rw [crcRounds_eq_specRounds]

/-- C1: `crc16_xmodem` (table-driven, table generated by `_gen_crc`) computes
CRC16-XMODEM: polynomial 0x1021, initial value 0, MSB-first, no final XOR
(here `crc16_spec`, the bitwise reference algorithm), and the reference
vector b"123456789" yields 0x31C3. -/
theorem crc16_xmodem_is_crc16_spec :
    (∀ data : List Nat, (∀ b ∈ data, b < 256) → crc16_xmodem data = crc16_spec data)
    ∧ crc16_xmodem [0x31, 0x32, 0x33, 0x34, 0x35, 0x36, 0x37, 0x38, 0x39] = 0x31C3 := by
  exact ⟨crc16_eq_spec_of_bytes, by decide⟩

/-- Witness for C1: the general equivalence applied at a concrete byte string. -/
theorem crc16_xmodem_is_crc16_spec_witness :
    crc16_xmodem [0x31, 0x32, 0x33] = crc16_spec [0x31, 0x32, 0x33] :=
  crc16_xmodem_is_crc16_spec.1 [0x31, 0x32, 0x33] (by decide)

/-! ## AddressCodec: base32 rendering and `encode_muxed_bytes` -/

/-- RFC4648 base32 alphabet, as used by Python's `base64.b32encode`. -/
def b32alphabet : List Char := "ABCDEFGHIJKLMNOPQRSTUVWXYZ234567".data

/-- Character for a 5-bit value (call sites always pass values below 32;
the mod keeps the index in range without changing those values). -/
def b32char (n : Nat) : Char := b32alphabet.getD (n % 32) 'A'

/-- A full 40-bit group rendered as 8 characters of 5 bits each,
most significant first (RFC4648 §6). -/
def b32group (v : Nat) : List Char :=
  [b32char (v / 2 ^ 35 % 32), b32char (v / 2 ^ 30 % 32), b32char (v / 2 ^ 25 % 32),
   b32char (v / 2 ^ 20 % 32), b32char (v / 2 ^ 15 % 32), b32char (v / 2 ^ 10 % 32),
   b32char (v / 2 ^ 5 % 32), b32char (v % 32)]

/-- The 40-bit value of five big-endian bytes. -/
def groupVal (b0 b1 b2 b3 b4 : Nat) : Nat :=
  b0 * 2 ^ 32 + b1 * 2 ^ 24 + b2 * 2 ^ 16 + b3 * 2 ^ 8 + b4

/-- Python `base64.b32encode`: 5-byte groups become 8 characters; a final
partial group of r bytes is zero-padded, keeps `ceil(8*r/5)` characters and
is filled to 8 with `=` (RFC4648 §6). -/
def b32encode : List Nat → List Char
  | b0 :: b1 :: b2 :: b3 :: b4 :: rest =>
      b32group (groupVal b0 b1 b2 b3 b4) ++ b32encode rest
  | [b0, b1, b2, b3] => (b32group (groupVal b0 b1 b2 b3 0)).take 7 ++ ['=']
  | [b0, b1, b2] => (b32group (groupVal b0 b1 b2 0 0)).take 5 ++ ['=', '=', '=']
  | [b0, b1] => (b32group (groupVal b0 b1 0 0 0)).take 4 ++ ['=', '=', '=', '=']
  | [b0] => (b32group (groupVal b0 0 0 0 0)).take 2 ++ ['=', '=', '=', '=', '=', '=']
  | [] => []

/-- Python `bytes.rstrip(b'=')`: drop all trailing pad characters. -/
def rstripPad (l : List Char) : List Char :=
  (l.reverse.dropWhile (fun c => c == '=')).reverse

/-- Big-endian packing: `struct.pack('>Q', v)` is `beBytes 8 v` and
`struct.pack('>H', v)` is `beBytes 2 v` (for in-range `v`). -/
def beBytes (n v : Nat) : List Nat :=
  (List.range n).map (fun i => v / 2 ^ (8 * (n - 1 - i)) % 256)

/-- Function `encode_muxed_bytes` from suffix_hunter_optimized.py:
`payload = b'\x60' + pubkey_bytes + struct.pack('>Q', sub_id)`;
`payload += struct.pack('>H', crc16_xmodem(payload))`;
`return base64.b32encode(payload).rstrip(b'=')`. -/
def encode_muxed_bytes (pubkey_bytes : List Nat) (sub_id : Nat) : List Char :=
  let payload := 0x60 :: pubkey_bytes ++ beBytes 8 sub_id
  let full := payload ++ beBytes 2 (crc16_xmodem payload)
  rstripPad (b32encode full)

/-- Modelled from the spec (§4.2): payload = [version byte 0x60] ++ pubkey ++
[subid, 8 bytes big-endian] ++ [CRC16XModem of the payload so far, 2 bytes
big-endian]; base32-encode the 43-byte payload with the RFC4648 alphabet and
strip trailing pad characters. -/
def encode_spec (pubkey : List Nat) (sub_id : Nat) : List Char :=
  let p41 := [0x60] ++ pubkey ++ beBytes 8 sub_id
  let p43 := p41 ++ beBytes 2 (crc16_spec p41)
  rstripPad (b32encode p43)

/-! ### Codec lemmas -/

theorem beBytes_lt (n v : Nat) : ∀ b ∈ beBytes n v, b < 256 := by
  intro b hb
  simp [beBytes] at hb
  obtain ⟨i, _, hi⟩ := hb
  omega

theorem beBytes_length (n v : Nat) : (beBytes n v).length = n := by
  simp [beBytes]

/-- C2: for every 32-byte public key and sub-identifier below 2^64,
`encode_muxed_bytes` produces exactly the spec-side construction
`encode_spec` (payload `[0x60] ++ pubkey ++ subid_be8 ++ crc_be2`,
RFC4648 base32, pads stripped); both are total functions. -/
theorem encode_muxed_bytes_meets_spec :
    ∀ (pubkey : List Nat) (sub_id : Nat), pubkey.length = 32 →
      (∀ b ∈ pubkey, b < 256) → sub_id < 2 ^ 64 →
      encode_muxed_bytes pubkey sub_id = encode_spec pubkey sub_id := by
  intro pubkey sub_id _ hbytes _
  unfold encode_muxed_bytes encode_spec
  have hpay : ∀ b ∈ 0x60 :: pubkey ++ beBytes 8 sub_id, b < 256 := by
    intro b hb
    rcases List.mem_cons.mp hb with h | h
    · omega
    · rcases List.mem_append.mp h with h2 | h2
      · exact hbytes b h2
      · exact beBytes_lt 8 sub_id b h2
  have hcrc : crc16_xmodem (0x60 :: pubkey ++ beBytes 8 sub_id)
      = crc16_spec (0x60 :: pubkey ++ beBytes 8 sub_id) :=
    crc16_eq_spec_of_bytes _ hpay
  simp only [List.singleton_append]
  rw [hcrc]

/-- Witness for C2. -/
theorem encode_muxed_bytes_meets_spec_witness :
    encode_muxed_bytes (List.replicate 32 0) 5 = encode_spec (List.replicate 32 0) 5 :=
  encode_muxed_bytes_meets_spec (List.replicate 32 0) 5 (by decide) (by decide)
    (by norm_num)

theorem b32char_ne_pad (n : Nat) : b32char n ≠ '=' := by
  have h32 : n % 32 < 32 := Nat.mod_lt _ (by norm_num)
  unfold b32char
  have hall : ∀ m, m < 32 → b32alphabet.getD m 'A' ≠ '=' := by decide
  exact hall _ h32

theorem b32group_ne_pad (v : Nat) : ∀ c ∈ b32group v, c ≠ '=' := by
  intro c hc
  simp [b32group] at hc
  rcases hc with h | h | h | h | h | h | h | h <;> subst h <;>
    exact b32char_ne_pad _

theorem b32group_length (v : Nat) : (b32group v).length = 8 := by
  simp [b32group]

theorem dropWhile_pad_eq_self (l : List Char) (h : ∀ c ∈ l, c ≠ '=') :
    l.dropWhile (fun c => c == '=') = l := by
  cases l with
  | nil => rfl
  | cons a t =>
    have ha : a ≠ '=' := h a (List.mem_cons_self _ _)
    simp [List.dropWhile_cons, ha]

theorem rstripPad_append_pads (d : List Char) (h : ∀ c ∈ d, c ≠ '=') :
    rstripPad (d ++ ['=', '=', '=']) = d := by
  unfold rstripPad
  rw [List.reverse_append]
  have h3 : (['=', '=', '='] : List Char).reverse = ['=', '=', '='] := rfl
  rw [h3]
  have hrev : ∀ c ∈ d.reverse, c ≠ '=' := by
    intro c hc
    exact h c (List.mem_reverse.mp hc)
  have hstep : (('=' :: '=' :: '=' :: d.reverse).dropWhile (fun c => c == '='))
      = d.reverse.dropWhile (fun c => c == '=') := by
    simp [List.dropWhile_cons]
  have : (['=', '=', '='] ++ d.reverse : List Char) = '=' :: '=' :: '=' :: d.reverse := rfl
  rw [this, hstep, dropWhile_pad_eq_self _ hrev, List.reverse_reverse]

theorem b32encode_shape : ∀ bs : List Nat, bs.length % 5 = 3 →
    ∃ d, b32encode bs = d ++ ['=', '=', '='] ∧ (∀ c ∈ d, c ≠ '=') ∧
      d.length = bs.length / 5 * 8 + 5 := by
  intro bs
  induction bs using b32encode.induct with
  | case1 b0 b1 b2 b3 b4 rest ih =>
    intro h
    have hrest : rest.length % 5 = 3 := by
      simp [List.length_cons] at h
      omega
    obtain ⟨d, hd1, hd2, hd3⟩ := ih hrest
    refine ⟨b32group (groupVal b0 b1 b2 b3 b4) ++ d, ?_, ?_, ?_⟩
    · simp [b32encode, hd1]
    · intro c hc
      rcases List.mem_append.mp hc with h2 | h2
      · exact b32group_ne_pad _ c h2
      · exact hd2 c h2
    · simp [b32group_length, hd3, List.length_cons]
      omega
  | case2 b0 b1 b2 b3 => intro h; simp at h
  | case3 b0 b1 b2 =>
    intro _
    refine ⟨(b32group (groupVal b0 b1 b2 0 0)).take 5, rfl, ?_, ?_⟩
    · intro c hc
      exact b32group_ne_pad _ c (List.take_subset 5 _ hc)
    · simp [b32group]
  | case4 b0 b1 => intro h; simp at h
  | case5 b0 => intro h; simp at h
  | case6 => intro h; simp at h

/-- C10: for every 32-byte public key and sub-identifier below 2^64,
the string produced by `encode_muxed_bytes` has length exactly 69 and its
first character is 'M' (43 payload bytes give 69 base32 characters after
stripping exactly three pads; the version byte 0x60 forces 'M'). -/
theorem encode_muxed_bytes_length_69_starts_M :
    ∀ (pubkey : List Nat) (sub_id : Nat), pubkey.length = 32 →
      (∀ b ∈ pubkey, b < 256) → sub_id < 2 ^ 64 →
      (encode_muxed_bytes pubkey sub_id).length = 69 ∧
      (encode_muxed_bytes pubkey sub_id).head? = some 'M' := by
  intro pubkey sub_id hlen hbytes _
  have hfl : (0x60 :: pubkey ++ beBytes 8 sub_id
      ++ beBytes 2 (crc16_xmodem (0x60 :: pubkey ++ beBytes 8 sub_id))).length
      = 43 := by
    simp [beBytes_length, hlen]
  obtain ⟨d, hd1, hd2, hd3⟩ := b32encode_shape _ (by rw [hfl])
  have henc : encode_muxed_bytes pubkey sub_id = d := by
    unfold encode_muxed_bytes
    simp only []
    rw [hd1]
    exact rstripPad_append_pads d hd2
  have hdlen : d.length = 69 := by rw [hd3, hfl]
  refine ⟨by rw [henc, hdlen], ?_⟩
  -- destructure the first four key bytes to expose the leading base32 group
  cases pubkey with
  | nil => simp at hlen
  | cons p0 t0 =>
  cases t0 with
  | nil => simp at hlen
  | cons p1 t1 =>
  cases t1 with
  | nil => simp at hlen
  | cons p2 t2 =>
  cases t2 with
  | nil => simp at hlen
  | cons p3 t3 =>
  have hp0 : p0 < 256 := hbytes p0 (by simp)
  have hp1 : p1 < 256 := hbytes p1 (by simp)
  have hp2 : p2 < 256 := hbytes p2 (by simp)
  have hp3 : p3 < 256 := hbytes p3 (by simp)
  have hchar : b32char (groupVal 0x60 p0 p1 p2 p3 / 2 ^ 35 % 32) = 'M' := by
    have h12 : groupVal 0x60 p0 p1 p2 p3 / 2 ^ 35 % 32 = 12 := by
      unfold groupVal
      norm_num
      omega
    rw [h12]
    decide
  have hheadfull : (b32encode (0x60 :: (p0 :: p1 :: p2 :: p3 :: t3)
      ++ beBytes 8 sub_id
      ++ beBytes 2 (crc16_xmodem (0x60 :: (p0 :: p1 :: p2 :: p3 :: t3)
          ++ beBytes 8 sub_id)))).head? = some 'M' := by
    have hshape : (0x60 :: (p0 :: p1 :: p2 :: p3 :: t3) ++ beBytes 8 sub_id
        ++ beBytes 2 (crc16_xmodem (0x60 :: (p0 :: p1 :: p2 :: p3 :: t3)
            ++ beBytes 8 sub_id)))
        = 0x60 :: p0 :: p1 :: p2 :: p3 :: (t3 ++ beBytes 8 sub_id
            ++ beBytes 2 (crc16_xmodem (0x60 :: (p0 :: p1 :: p2 :: p3 :: t3)
                ++ beBytes 8 sub_id))) := by
      simp
    rw [hshape]
    simp [b32encode, b32group]
    exact hchar
  have hd1' := hd1
  have hdne : d ≠ [] := by
    intro hnil
    rw [hnil] at hdlen
    simp at hdlen
  have hdh : (d ++ ['=', '=', '='] : List Char).head? = d.head? := by
    cases d with
    | nil => exact absurd rfl hdne
    | cons a t => rfl
  rw [henc]
  rw [hd1'] at hheadfull
  rw [hdh] at hheadfull
  exact hheadfull

/-- Witness for C10. -/
theorem encode_muxed_bytes_length_69_starts_M_witness :
    (encode_muxed_bytes (List.replicate 32 7) 99).length = 69 ∧
    (encode_muxed_bytes (List.replicate 32 7) 99).head? = some 'M' :=
  encode_muxed_bytes_length_69_starts_M (List.replicate 32 7) 99 (by decide)
    (by decide) (by norm_num)

/-! ## RangeAllocator / Feeder (`feed_chunks`) -/

/-- The emission loop of `feed_chunks` (suffix_hunter_optimized.py):
while `subid < max_subid` (and no stop signal), emit the chunk
`(subid, min(max_subid, subid + chunk_size))`, advance `subid` to the chunk
end, and — when a resume file is configured and the new `subid` is an exact
multiple of 5,000,000 — write it to the resume file.  Returns the emitted
chunks and the checkpoint values written, in order.  The queue is modelled
as accepting every put (the `queue.Full` retry re-attempts the same chunk,
so successful puts follow this sequence); with `chunk_size = 0` the Python
loop would never terminate, so the model also stops there. -/
def feedLoop (subid max_subid chunk_size : Nat) (hasResume : Bool) :
    List (Nat × Nat) × List Nat :=
  if h : subid < max_subid ∧ 0 < chunk_size then
    let e := min max_subid (subid + chunk_size)
    let rest := feedLoop e max_subid chunk_size hasResume
    ((subid, e) :: rest.1,
      (if hasResume && e % 5000000 == 0 then [e] else []) ++ rest.2)
  else ([], [])
termination_by max_subid - subid
decreasing_by
  simp_wf
  omega

/-- Function `feed_chunks`: run the emission loop from the resolved start, then push
one `None` sentinel per worker.  The first component is the sequence of
values put on the chunk queue (`some chunk` or the `none` sentinel), the
second the checkpoint writes. -/
def feed_chunks (start max_subid chunk_size n_workers : Nat) (hasResume : Bool) :
    List (Option (Nat × Nat)) × List Nat :=
  let r := feedLoop start max_subid chunk_size hasResume
  (r.1.map some ++ List.replicate n_workers none, r.2)

/-- Start-point resolution at the top of `feed_chunks`
(suffix_hunter_optimized.py): if the resume file exists and parses as an
integer, resume exactly from it; otherwise (absent, or present but
unparsable — the bare `except: pass`) fall back to the random draw.
`fileState`: `none` = no file, `some none` = present but unparsable,
`some (some v)` = parses as `v`.  `randVal` models the result of
`random.randint(0, max(0, max_subid - chunk_size * 1000))`. -/
def feeder_start (fileState : Option (Option Nat)) (randVal : Nat) : Nat :=
  match fileState with
  | some (some v) => v
  | _ => randVal

/-- The inclusive upper bound of the feeder's random fallback draw:
`random.randint(0, max(0, max_subid - chunk_size * 1000))` returns an
integer `r` with `0 ≤ r ≤ max(0, max_subid - chunk_size * 1000)`. -/
def randint_upper (max_subid chunk_size : Nat) : Nat :=
  max 0 (max_subid - chunk_size * 1000)

/-! ### Feeder lemmas -/

theorem feedLoop_chunk_bounds : ∀ (fuel s m z : Nat) (r : Bool), m - s ≤ fuel →
    ∀ c ∈ (feedLoop s m z r).1, s ≤ c.1 ∧ c.1 < c.2 ∧ c.2 ≤ m := by
  intro fuel
  induction fuel with
  | zero =>
    intro s m z r hf c hc
    rw [feedLoop, dif_neg (by omega)] at hc
    simp at hc
  | succ n ih =>
    intro s m z r hf c hc
    rw [feedLoop] at hc
    by_cases hcond : s < m ∧ 0 < z
    · rw [dif_pos hcond] at hc
      simp only [List.mem_cons] at hc
      rcases hc with rfl | hc
      · refine ⟨le_refl s, ?_, ?_⟩ <;> simp <;> omega
      · have hb := ih (min m (s + z)) m z r (by omega) c hc
        omega
    · rw [dif_neg hcond] at hc
      simp at hc

theorem feedLoop_covers : ∀ (fuel s m z : Nat) (r : Bool), m - s ≤ fuel → 0 < z →
    ∀ x, s ≤ x → x < m →
    ∃ c, c ∈ (feedLoop s m z r).1 ∧ c.1 ≤ x ∧ x < c.2 := by
  intro fuel
  induction fuel with
  | zero => intro s m z r hf _ x h1 h2; omega
  | succ n ih =>
    intro s m z r hf hz x h1 h2
    rw [feedLoop, dif_pos ⟨by omega, hz⟩]
    simp only [List.mem_cons]
    by_cases hx : x < min m (s + z)
    · exact ⟨(s, min m (s + z)), Or.inl rfl, h1, hx⟩
    · obtain ⟨c, hc, hcx⟩ := ih (min m (s + z)) m z r (by omega) hz x (by omega) h2
      exact ⟨c, Or.inr hc, hcx⟩

theorem feedLoop_ordered : ∀ (fuel s m z : Nat) (r : Bool), m - s ≤ fuel →
    (feedLoop s m z r).1.Pairwise (fun c1 c2 => c1.2 ≤ c2.1) := by
  intro fuel
  induction fuel with
  | zero =>
    intro s m z r hf
    rw [feedLoop, dif_neg (by omega)]
    exact List.Pairwise.nil
  | succ n ih =>
    intro s m z r hf
    rw [feedLoop]
    by_cases hcond : s < m ∧ 0 < z
    · rw [dif_pos hcond]
      simp only [List.pairwise_cons]
      constructor
      · intro c hc
        have hb := feedLoop_chunk_bounds n (min m (s + z)) m z r (by omega) c hc
        change min m (s + z) ≤ c.1
        omega
      · exact ih (min m (s + z)) m z r (by omega)
    · rw [dif_neg hcond]
      exact List.Pairwise.nil

/-- C3: for every start point and positive chunk size the feeder's chunks,
absent a stop signal, partition `[start, max_subid)` exactly: a value lies
in that interval iff some emitted chunk contains it, and the chunks are
pairwise non-overlapping. -/
theorem feed_chunks_partition :
    ∀ (start max_subid chunk_size : Nat) (r : Bool), 0 < chunk_size →
    (∀ x, (start ≤ x ∧ x < max_subid) ↔
      ∃ c, c ∈ (feedLoop start max_subid chunk_size r).1 ∧ c.1 ≤ x ∧ x < c.2) ∧
    (feedLoop start max_subid chunk_size r).1.Pairwise
      (fun c1 c2 => ∀ x, ¬ (c1.1 ≤ x ∧ x < c1.2 ∧ c2.1 ≤ x ∧ x < c2.2)) := by
  intro start max_subid chunk_size r hz
  constructor
  · intro x
    constructor
    · rintro ⟨h1, h2⟩
      exact feedLoop_covers (max_subid - start) start max_subid chunk_size r
        (le_refl _) hz x h1 h2
    · rintro ⟨c, hc, h1, h2⟩
      have hb := feedLoop_chunk_bounds (max_subid - start) start max_subid
        chunk_size r (le_refl _) c hc
      omega
  · exact (feedLoop_ordered (max_subid - start) start max_subid chunk_size r
      (le_refl _)).imp (by intro c1 c2 h x; omega)

/-- Witness for C3 at `start = 0`, `max = 10`, `chunk_size = 3`. -/
theorem feed_chunks_partition_witness :
    (∀ x, (0 ≤ x ∧ x < 10) ↔
      ∃ c, c ∈ (feedLoop 0 10 3 true).1 ∧ c.1 ≤ x ∧ x < c.2) ∧
    (feedLoop 0 10 3 true).1.Pairwise
      (fun c1 c2 => ∀ x, ¬ (c1.1 ≤ x ∧ x < c1.2 ∧ c2.1 ≤ x ∧ x < c2.2)) :=
  feed_chunks_partition 0 10 3 true (by norm_num)

theorem feedLoop_checkpoint_mem : ∀ (fuel s m z : Nat), m - s ≤ fuel →
    ∀ v : Nat, v ∈ (feedLoop s m z true).2 ↔
      ((∃ c, c ∈ (feedLoop s m z true).1 ∧ c.2 = v) ∧ v % 5000000 = 0) := by
  intro fuel
  induction fuel with
  | zero =>
    intro s m z hf v
    rw [feedLoop, dif_neg (by omega)]
    simp
  | succ n ih =>
    intro s m z hf v
    rw [feedLoop]
    by_cases hcond : s < m ∧ 0 < z
    · rw [dif_pos hcond]
      simp only [List.mem_append, List.mem_cons, Bool.true_and]
      have hrec := ih (min m (s + z)) m z (by omega) v
      by_cases he : min m (s + z) % 5000000 = 0
      · rw [if_pos (by simpa using he)]
        simp only [List.mem_singleton]
        constructor
        · rintro (rfl | hv)
          · exact ⟨⟨(s, min m (s + z)), Or.inl rfl, rfl⟩, he⟩
          · obtain ⟨⟨c, hc, hcv⟩, hmod⟩ := hrec.mp hv
            exact ⟨⟨c, Or.inr hc, hcv⟩, hmod⟩
        · rintro ⟨⟨c, hc, hcv⟩, hmod⟩
          rcases hc with rfl | hc
          · exact Or.inl hcv.symm
          · exact Or.inr (hrec.mpr ⟨⟨c, hc, hcv⟩, hmod⟩)
      · rw [if_neg (by simpa using he)]
        simp only [List.not_mem_nil, false_or]
        constructor
        · intro hv
          obtain ⟨⟨c, hc, hcv⟩, hmod⟩ := hrec.mp hv
          exact ⟨⟨c, Or.inr hc, hcv⟩, hmod⟩
        · rintro ⟨⟨c, hc, hcv⟩, hmod⟩
          rcases hc with rfl | hc
          · exact absurd (by rw [← hcv] at hmod; exact hmod) he
          · exact hrec.mpr ⟨⟨c, hc, hcv⟩, hmod⟩
    · rw [dif_neg hcond]
      simp

/-- C4 amended: with a resume file configured, a checkpoint value is
written iff it is a chunk boundary (the end of an emitted chunk, i.e. the
next unissued sub-identifier at that moment) that is an exact multiple of
5,000,000.  In particular a run whose boundaries never hit a multiple of
5,000,000 — any start point not aligned to the 5,000,000 grid of chunk
ends — writes no checkpoint at all, however many identifiers it emits. -/
theorem feed_chunks_checkpoint_characterization :
    ∀ (s m z v : Nat),
      v ∈ (feedLoop s m z true).2 ↔
        ((∃ c, c ∈ (feedLoop s m z true).1 ∧ c.2 = v) ∧ v % 5000000 = 0) :=
  fun s m z v => feedLoop_checkpoint_mem (m - s) s m z (le_refl _) v

/-- Counterexample to C4 as stated: starting from sub-identifier 1 with the
shipped chunk size 500,000 and a space of 5,000,001 identifiers, the run
emits 5,000,001 ≥ 5,000,000 identifiers past the start point yet performs
no checkpoint write at all (no chunk boundary 1 + k·500,000 is a multiple
of 5,000,000). -/
theorem feed_chunks_checkpoint_counterexample :
    5000000 ≤ 5000002 - 1 ∧ (feedLoop 1 5000002 500000 true).2 = [] := by
  constructor
  · norm_num
  · simp [feedLoop]

/-- C5: the feeder's queue trace ends with exactly one `None` sentinel per
worker: the trace counts exactly `n_workers` sentinels, and the suffix after
the emitted chunks is exactly `n_workers` sentinels. -/
theorem feed_chunks_sentinel_per_worker :
    ∀ (s m z n : Nat) (r : Bool),
      ((feed_chunks s m z n r).1.countP (fun o => o.isNone)) = n ∧
      (feed_chunks s m z n r).1.drop ((feedLoop s m z r).1.length)
        = List.replicate n none := by
  intro s m z n r
  unfold feed_chunks
  simp only []
  constructor
  · rw [List.countP_append, List.countP_map]
    have h1 : ((feedLoop s m z r).1.countP ((fun o : Option (Nat × Nat) => o.isNone)
        ∘ some)) = 0 := by
      apply List.countP_eq_zero.mpr
      intro c _
      simp [Function.comp]
    have h2 : (List.replicate n (none : Option (Nat × Nat))).countP
        (fun o => o.isNone) = n := by
      rw [List.countP_replicate]
      simp
    omega
  · rw [List.drop_left' (by rw [List.length_map])]

/-- C9 amended: if the resume file parses as an integer the feeder starts
exactly there; if it is absent or unparsable the feeder does not fail and
starts at the random draw, which — by `random.randint`'s inclusive bounds —
lies in the closed interval `[0, max(0, max_subid − chunk_size·1000)]`
(1000 chunk sizes of lookahead; the upper endpoint itself is attainable). -/
theorem feeder_start_resolution :
    (∀ v rv : Nat, feeder_start (some (some v)) rv = v) ∧
    (∀ (fs : Option (Option Nat)) (rv m z : Nat),
      (fs = none ∨ fs = some none) → rv ≤ randint_upper m z →
      feeder_start fs rv = rv ∧ feeder_start fs rv ≤ randint_upper m z) := by
  constructor
  · intro v rv
    rfl
  · rintro fs rv m z (rfl | rfl) hrv
    · exact ⟨rfl, hrv⟩
    · exact ⟨rfl, hrv⟩

/-- Witness for C9: an unparsable checkpoint resolves to the random draw. -/
theorem feeder_start_resolution_witness :
    feeder_start (some none) 5 = 5 ∧
    feeder_start (some none) 5 ≤ randint_upper 2000000 1000 :=
  feeder_start_resolution.2 (some none) 5 2000000 1000 (Or.inr rfl)
    (by norm_num [randint_upper])

/-- Counterexample to C9 as stated: with `max_subid = 2,000,000` and
`chunk_size = 1,000`, the draw `1,000,000` is admissible for
`random.randint(0, max(0, max_subid - chunk_size*1000))` (inclusive upper
bound), the feeder starts there after an unparsable checkpoint, yet that
start does not lie in the claimed half-open interval
`[0, max_subid − 1000·chunk_size)`. -/
theorem feeder_start_interval_counterexample :
    1000000 ≤ randint_upper 2000000 1000 ∧
    feeder_start (some none) 1000000 = 1000000 ∧
    ¬ (1000000 < 2000000 - 1000 * 1000) := by
  refine ⟨by norm_num [randint_upper], rfl, by norm_num⟩

/-! ## SearchTarget predicates (mux_finder_V2.py, mux_finder.py) -/

/-- Python `str.upper()`, character by character. -/
def upperChars (s : List Char) : List Char := s.map Char.toUpper

/-- Python `s[-length:]` for a positive length: the last `length` characters
(the whole string when `length ≥ s.length`). -/
def tailChars (s : List Char) (l : Nat) : List Char := s.drop (s.length - l)

/-- The shared shape of both dictionary loops: walk the length list, compute
the candidate tail via `f`, return the first tail that is a dictionary
member. -/
def firstTailMatch (f : Nat → List Char) (ws : List (List Char)) :
    List Nat → Option (List Char)
  | [] => none
  | l :: ls => if f l ∈ ws then some (f l) else firstTailMatch f ws ls

/-- mux_finder_V2.py: `range(MAX_WORD_LEN, MIN_WORD_LEN - 1, -1)` with
`MAX_WORD_LEN = 10`, `MIN_WORD_LEN = 4`: the lengths 10 down to 4. -/
def V2_lengths : List Nat := (List.range' 4 7).reverse

/-- mux_finder.py: `range(4, 10)`: the lengths 4 up to 9. -/
def V1_lengths : List Nat := List.range' 4 6

/-- Function `is_valid_suffix` (mux_finder_V2.py): uppercase the whole address once,
then longest-first return the first tail that is a dictionary member. -/
def is_valid_suffix (m_address : List Char) (english_words : List (List Char)) :
    Option (List Char) :=
  firstTailMatch (fun l => tailChars (upperChars m_address) l) english_words
    V2_lengths

/-- Function `is_valid_suffix` (mux_finder.py): shortest-first, uppercasing each tail
(`m_address[-length:].upper()`). -/
def is_valid_suffix_v1 (m_address : List Char) (english_words : List (List Char)) :
    Option (List Char) :=
  firstTailMatch (fun l => upperChars (tailChars m_address l)) english_words
    V1_lengths

/-! ### Predicate lemmas -/

theorem firstTailMatch_none_iff (f : Nat → List Char) (ws : List (List Char)) :
    ∀ ls, firstTailMatch f ws ls = none ↔ ∀ l ∈ ls, f l ∉ ws := by
  intro ls
  induction ls with
  | nil => simp [firstTailMatch]
  | cons l ls ih =>
    simp only [firstTailMatch]
    by_cases h : f l ∈ ws
    · simp [h]
    · simp [h, ih]

theorem firstTailMatch_some_iff (f : Nat → List Char) (ws : List (List Char)) :
    ∀ ls w, firstTailMatch f ws ls = some w ↔
      ∃ pre l post, ls = pre ++ l :: post ∧ (∀ l' ∈ pre, f l' ∉ ws) ∧
        f l ∈ ws ∧ w = f l := by
  intro ls
  induction ls with
  | nil =>
    intro w
    simp [firstTailMatch]
  | cons l0 ls ih =>
    intro w
    simp only [firstTailMatch]
    by_cases h : f l0 ∈ ws
    · rw [if_pos h]
      constructor
      · intro hw
        refine ⟨[], l0, ls, rfl, by simp, h, (Option.some_inj.mp hw).symm⟩
      · rintro ⟨pre, l, post, hdec, hpre, hl, rfl⟩
        cases pre with
        | nil =>
          simp only [List.nil_append, List.cons.injEq] at hdec
          rw [hdec.1]
        | cons p0 pre =>
          simp only [List.cons_append, List.cons.injEq] at hdec
          exact absurd (hdec.1 ▸ h) (hpre p0 (List.mem_cons_self _ _))
    · rw [if_neg h]
      rw [ih w]
      constructor
      · rintro ⟨pre, l, post, hdec, hpre, hl, rfl⟩
        refine ⟨l0 :: pre, l, post, by rw [hdec]; rfl, ?_, hl, rfl⟩
        intro l' hl'
        rcases List.mem_cons.mp hl' with rfl | hm
        · exact h
        · exact hpre l' hm
      · rintro ⟨pre, l, post, hdec, hpre, hl, rfl⟩
        cases pre with
        | nil =>
          simp only [List.nil_append, List.cons.injEq] at hdec
          exact absurd (hdec.1 ▸ hl) h
        | cons p0 pre =>
          simp only [List.cons_append, List.cons.injEq] at hdec
          exact ⟨pre, l, post, hdec.2, fun l' hm => hpre l' (List.mem_cons_of_mem _ hm),
            hl, rfl⟩

/-- C6: both dictionary predicates test the uppercased tail of each
configured length in a fixed order (longest-first 10..4 in mux_finder_V2.py,
shortest-first 4..9 in mux_finder.py), stop at the first matching length and
return that tail, and return nothing iff no configured length matches. -/
theorem is_valid_suffix_first_match :
    ∀ (m : List Char) (ws : List (List Char)),
      ((is_valid_suffix m ws = none ↔
          ∀ l ∈ V2_lengths, tailChars (upperChars m) l ∉ ws) ∧
        (∀ w, is_valid_suffix m ws = some w ↔
          ∃ pre l post, V2_lengths = pre ++ l :: post ∧
            (∀ l' ∈ pre, tailChars (upperChars m) l' ∉ ws) ∧
            tailChars (upperChars m) l ∈ ws ∧ w = tailChars (upperChars m) l)) ∧
      ((is_valid_suffix_v1 m ws = none ↔
          ∀ l ∈ V1_lengths, upperChars (tailChars m l) ∉ ws) ∧
        (∀ w, is_valid_suffix_v1 m ws = some w ↔
          ∃ pre l post, V1_lengths = pre ++ l :: post ∧
            (∀ l' ∈ pre, upperChars (tailChars m l') ∉ ws) ∧
            upperChars (tailChars m l) ∈ ws ∧ w = upperChars (tailChars m l))) ∧
      V2_lengths = [10, 9, 8, 7, 6, 5, 4] ∧ V1_lengths = [4, 5, 6, 7, 8, 9] := by
  intro m ws
  refine ⟨⟨?_, ?_⟩, ⟨?_, ?_⟩, by decide, by decide⟩
  · exact firstTailMatch_none_iff _ ws V2_lengths
  · intro w
    exact firstTailMatch_some_iff _ ws V2_lengths w
  · exact firstTailMatch_none_iff _ ws V1_lengths
  · intro w
    exact firstTailMatch_some_iff _ ws V1_lengths w

/-! ## ResultCollector (mux_finder_V2.py `writer_and_monitor`) -/

/-- One step of the result-drain loop of `writer_and_monitor`:
`word_u = word.upper()`; if already seen, discard silently; otherwise add to
the seen-set and buffer the match record (the output line pairs the address
with the matched word).  State: (found_words, buffered records). -/
def collectStep (st : List (List Char) × List (List Char × List Char))
    (res : List Char × List Char) :
    List (List Char) × List (List Char × List Char) :=
  let word_u := upperChars res.2
  if word_u ∈ st.1 then st
  else (word_u :: st.1, st.2 ++ [(res.1, word_u)])

/-- The collector's result drain over a whole sequence of `(address, word)`
results, starting from the fresh state (`found_words = set()`, empty
buffer). -/
def collectResults (results : List (List Char × List Char)) :
    List (List Char) × List (List Char × List Char) :=
  results.foldl collectStep ([], [])

/-! ### Collector lemmas -/

theorem countP_beq_of_nodup {α : Type} [BEq α] [LawfulBEq α] :
    ∀ (l : List α) (a : α), l.Nodup → a ∈ l →
      l.countP (fun x => x == a) = 1 := by
  intro l a hnd ha
  induction l with
  | nil => simp at ha
  | cons b t ih =>
    rcases List.mem_cons.mp ha with rfl | hm
    · have hnotin : a ∉ t := (List.nodup_cons.mp hnd).1
      have hz : t.countP (fun x => x == a) = 0 := by
        apply List.countP_eq_zero.mpr
        intro x hx
        simp only [beq_iff_eq]
        rintro rfl
        exact hnotin hx
      rw [List.countP_cons, hz]
      simp
    · have hb : (b == a) = false := by
        simp only [beq_eq_false_iff_ne, ne_eq]
        rintro rfl
        exact (List.nodup_cons.mp hnd).1 hm
      rw [List.countP_cons, hb]
      have hid : (if (false = true) then 1 else 0) = 0 := rfl
      rw [hid, Nat.add_zero]
      exact ih (List.nodup_cons.mp hnd).2 hm

theorem collect_invariant :
    ∀ (results : List (List Char × List Char))
      (st : List (List Char) × List (List Char × List Char)),
      ((st.2.map Prod.snd).Nodup ∧ (∀ w, w ∈ st.1 ↔ w ∈ st.2.map Prod.snd)) →
      (((results.foldl collectStep st).2.map Prod.snd).Nodup ∧
        (∀ w, w ∈ (results.foldl collectStep st).1 ↔
          w ∈ (results.foldl collectStep st).2.map Prod.snd)) ∧
      (∀ w, w ∈ st.1 → w ∈ (results.foldl collectStep st).1) ∧
      (∀ a w, (a, w) ∈ results →
        upperChars w ∈ (results.foldl collectStep st).1) := by
  intro results
  induction results with
  | nil =>
    intro st hst
    exact ⟨hst, fun w hw => hw, by simp⟩
  | cons res rest ih =>
    intro st hst
    obtain ⟨hnd, hiff⟩ := hst
    simp only [List.foldl_cons]
    have hstep : ((collectStep st res).2.map Prod.snd).Nodup ∧
        (∀ w, w ∈ (collectStep st res).1 ↔
          w ∈ (collectStep st res).2.map Prod.snd) := by
      unfold collectStep
      by_cases h : upperChars res.2 ∈ st.1
      · rw [if_pos h]
        exact ⟨hnd, hiff⟩
      · rw [if_neg h]
        constructor
        · simp only [List.map_append, List.map_cons, List.map_nil]
          rw [List.nodup_append]
          refine ⟨hnd, List.nodup_singleton _, ?_⟩
          intro x hx hx2
          simp only [List.mem_singleton] at hx2
          subst hx2
          exact h ((hiff _).mpr hx)
        · intro w
          simp only [List.mem_cons, List.map_append, List.map_cons, List.map_nil,
            List.mem_append, List.mem_singleton]
          rw [hiff w]
          tauto
    have hmono : ∀ w, w ∈ st.1 → w ∈ (collectStep st res).1 := by
      intro w hw
      unfold collectStep
      by_cases h : upperChars res.2 ∈ st.1
      · rw [if_pos h]; exact hw
      · rw [if_neg h]; exact List.mem_cons_of_mem _ hw
    have hself : upperChars res.2 ∈ (collectStep st res).1 := by
      unfold collectStep
      by_cases h : upperChars res.2 ∈ st.1
      · rw [if_pos h]; exact h
      · rw [if_neg h]; exact List.mem_cons_self _ _
    obtain ⟨hmain, hmono2, hall⟩ := ih (collectStep st res) hstep
    refine ⟨hmain, ?_, ?_⟩
    · intro w hw
      exact hmono2 w (hmono w hw)
    · intro a w hw
      rcases List.mem_cons.mp hw with heq | hm
    
      · have : upperChars w ∈ (collectStep st res).1 := by
          rw [show res = (a, w) from heq.symm ▸ rfl] at hself ⊢
          exact hself
        exact hmono2 _ this
      · exact hall a w hm

/-- C7: in dictionary mode the collector deduplicates by matched word: the
persisted records have pairwise-distinct matched targets, and every word
that occurs among the consumed results — however many times — yields exactly
one output record for that word. -/
theorem collector_dedup_by_word :
    ∀ results : List (List Char × List Char),
      ((collectResults results).2.map Prod.snd).Nodup ∧
      (∀ w, (∃ a, (a, w) ∈ results) →
        ((collectResults results).2.countP
          (fun r => r.2 == upperChars w)) = 1) := by
  intro results
  obtain ⟨⟨hnd, hiff⟩, _, hall⟩ :=
    collect_invariant results ([], []) (by simp)
  refine ⟨hnd, ?_⟩
  intro w ⟨a, hw⟩
  have hmem : upperChars w ∈ (collectResults results).2.map Prod.snd :=
    (hiff _).mp (hall a w hw)
  have hcount := countP_beq_of_nodup _ (upperChars w) hnd hmem
  rw [List.countP_map] at hcount
  simp only [Function.comp_def] at hcount
  exact hcount

/-! ## WorkerPool (suffix_hunter.py `worker_process`) -/

/-- The per-chunk scan of `worker_process` (suffix_hunter.py), with the
remaining iteration count as first recursion argument: for each sub-id in
order, compute the candidate address and test
`m_address.upper().endswith(suf)`; on the first match push the address to
the found queue, set the stop event and break — later sub-ids of the chunk
are never tested.  Returns (tested sub-ids, pushed addresses, stop flag).
`addr` is the address codec (`MuxedAccount(g, sub_id).account_muxed`). -/
def workerScan (addr : Nat → List Char) (suf : List Char) :
    Nat → Nat → List Nat × List (List Char) × Bool
  | _, 0 => ([], [], false)
  | i, n + 1 =>
    if suf.isSuffixOf (upperChars (addr i)) then ([i], [addr i], true)
    else
      let r := workerScan addr suf (i + 1) n
      (i :: r.1, r.2.1, r.2.2)

/-- A worker processing the single chunk `[s, e)` against the uppercased
target (`suf = target_suffix.upper()` is computed once before the loop). -/
def worker_run (addr : Nat → List Char) (target : List Char) (s e : Nat) :
    List Nat × List (List Char) × Bool :=
  workerScan addr (upperChars target) s (e - s)

/-! ### Worker lemmas -/

theorem workerScan_no_match (addr : Nat → List Char) (suf : List Char) :
    ∀ (n i : Nat),
      (∀ j, i ≤ j → j < i + n → ¬ suf.isSuffixOf (upperChars (addr j)) = true) →
      workerScan addr suf i n = (List.range' i n, [], false) := by
  intro n
  induction n with
  | zero => intro i _; rfl
  | succ n ih =>
    intro i h
    have hi : ¬ suf.isSuffixOf (upperChars (addr i)) = true :=
      h i (le_refl i) (by omega)
    simp only [workerScan]
    rw [if_neg hi, ih (i + 1) (fun j h1 h2 => h j (by omega) (by omega)),
      List.range'_succ]

theorem workerScan_first_match (addr : Nat → List Char) (suf : List Char) :
    ∀ (n k i : Nat), k < n →
      suf.isSuffixOf (upperChars (addr (i + k))) = true →
      (∀ j, i ≤ j → j < i + k → ¬ suf.isSuffixOf (upperChars (addr j)) = true) →
      workerScan addr suf i n = (List.range' i (k + 1), [addr (i + k)], true) := by
  intro n
  induction n with
  | zero => intro k i hk _ _; exact absurd hk (Nat.not_lt_zero k)
  | succ n ih =>
    intro k i hk hmatch hbefore
    cases k with
    | zero =>
      simp only [workerScan]
      rw [if_pos (by simpa using hmatch)]
      simp
    | succ k =>
      have hi : ¬ suf.isSuffixOf (upperChars (addr i)) = true :=
        hbefore i (le_refl i) (by omega)
      have hshift : i + 1 + k = i + (k + 1) := by omega
      simp only [workerScan]
      rw [if_neg hi,
        ih k (i + 1) (by omega) (by rw [hshift]; exact hmatch)
          (fun j h1 h2 => hbefore j (by omega) (by omega))]
      simp [List.range'_succ]
      rw [hshift]

/-- C8: in exact-suffix mode a worker scanning chunk `[s, e)` reports a
candidate iff its uppercased address ends with the uppercased target: if no
sub-id of the chunk matches it tests all of them, reports nothing and leaves
the stop signal unset; at the first matching sub-id `i` it pushes exactly
that candidate, sets the stop signal, and tests no sub-id beyond `i`. -/
theorem worker_exact_suffix :
    ∀ (addr : Nat → List Char) (target : List Char) (s e : Nat),
      ((∀ i, s ≤ i → i < e →
          ¬ (upperChars target).isSuffixOf (upperChars (addr i)) = true) →
        worker_run addr target s e = (List.range' s (e - s), [], false)) ∧
      (∀ i, s ≤ i → i < e →
        (upperChars target).isSuffixOf (upperChars (addr i)) = true →
        (∀ j, s ≤ j → j < i →
          ¬ (upperChars target).isSuffixOf (upperChars (addr j)) = true) →
        worker_run addr target s e
          = (List.range' s (i - s + 1), [addr i], true)) := by
  intro addr target s e
  constructor
  · intro h
    exact workerScan_no_match addr (upperChars target) (e - s) s
      (fun j h1 h2 => h j h1 (by omega))
  · intro i h1 h2 hm hb
    have hsk : s + (i - s) = i := by omega
    have := workerScan_first_match addr (upperChars target) (e - s) (i - s) s
      (by omega) (by rw [hsk]; exact hm)
      (fun j hj1 hj2 => hb j hj1 (by omega))
    rw [hsk] at this
    exact this

/-- A concrete candidate function for the C8 witness: sub-id 1 encodes to
"ab", everything else to "cd". -/
def demoAddr (i : Nat) : List Char := if i = 1 then ['a', 'b'] else ['c', 'd']

/-- Witness for C8: scanning `[0, 3)` for target "B" stops at sub-id 1. -/
theorem worker_exact_suffix_witness :
    worker_run demoAddr ['B'] 0 3
      = (List.range' 0 (1 - 0 + 1), [demoAddr 1], true) :=
  (worker_exact_suffix demoAddr ['B'] 0 3).2 1 (by decide) (by decide) (by decide)
    (fun j _ h2 => by
      have hj : j = 0 := by omega
      subst hj
      decide)

/-- Witness for C4 (amended): the characterization at a concrete unaligned
run, where the boundary 3 is not a multiple of 5,000,000 and so not written. -/
theorem feed_chunks_checkpoint_characterization_witness :
    3 ∈ (feedLoop 0 10 3 true).2 ↔
      ((∃ c, c ∈ (feedLoop 0 10 3 true).1 ∧ c.2 = 3) ∧ 3 % 5000000 = 0) :=
  feed_chunks_checkpoint_characterization 0 10 3 3

/-- Witness for C5 at two workers. -/
theorem feed_chunks_sentinel_per_worker_witness :
    ((feed_chunks 0 10 3 2 true).1.countP (fun o => o.isNone)) = 2 ∧
    (feed_chunks 0 10 3 2 true).1.drop ((feedLoop 0 10 3 true).1.length)
      = List.replicate 2 none :=
  feed_chunks_sentinel_per_worker 0 10 3 2 true

/-- Witness for C6: the two evaluation orders, extracted at empty inputs. -/
theorem is_valid_suffix_first_match_witness :
    V2_lengths = [10, 9, 8, 7, 6, 5, 4] ∧ V1_lengths = [4, 5, 6, 7, 8, 9] :=
  ⟨(is_valid_suffix_first_match [] []).2.2.1,
    (is_valid_suffix_first_match [] []).2.2.2⟩

/-- Witness for C7: the same matched word fed twice yields one record. -/
theorem collector_dedup_by_word_witness :
    ((collectResults [(['G'], ['h', 'i']), (['B'], ['h', 'i'])]).2.countP
      (fun r => r.2 == upperChars ['h', 'i'])) = 1 :=
  (collector_dedup_by_word [(['G'], ['h', 'i']), (['B'], ['h', 'i'])]).2
    ['h', 'i'] ⟨['G'], by decide⟩
